import Mathlib

/-!
Verification development for the `PropertySheet` Gradio component
(`backend/gradio_propertysheet/propertysheet.py`).

The component reflects a Python dataclass instance into a JSON schema for a
front-end ("extraction", `postprocess`) and merges edit payloads back into a
dataclass instance ("reconciliation", `preprocess`).  The embedding below
translates the Python code into executable Lean definitions:

* Python scalar values (`None`, `bool`, `int`, `float`, `str`) become `PValue`;
  floats are modelled as rationals, since the code only stores and compares
  them and never computes with them.
* A dataclass type becomes `DCType`: an ordered list of field declarations.
  A field is either a scalar field (with declared type, default and the
  Gradio metadata keys the code reads, namely `component` and `label`) or a
  nested dataclass field ("group") with its own scalar fields — the code
  supports exactly one level of nesting.  `dataclasses.field(default=...)` /
  `default_factory` defaults are modelled as total (`prop_meta` usage in the
  repository always supplies a default; a `MISSING` default together with the
  zero-argument construction `self._dataclass_type()` performed by
  `preprocess` would be a `TypeError` in Python, so types reaching
  `preprocess` are default-constructible).  A `MISSING` default observed by
  `_extract_prop_metadata` line 89 behaves exactly like a default of `None`,
  which is how it is represented here.
* A dataclass instance becomes `DCInst`: the type together with one
  `FieldVal` per field.  Python's `setattr` can overwrite a nested-group
  attribute with a scalar, so a group slot may hold a `FieldVal.scalar`
  (a "clobbered" group); `hasattr` on such a scalar then fails to find
  nested field names, exactly as in Python.
* `postprocess` returns `Option` of a schema: `none` models the `TypeError`
  Python raises when a field whose declared type is a dataclass holds a
  non-dataclass value (`dataclasses.fields(group_obj)` on line 143).  The
  mismatched case of a scalar-declared field holding a dataclass value is
  likewise mapped to `none`: its Python descriptor would carry a dataclass
  object as `value`, which is outside the scalar value universe modelled
  here; no claim touches that case.  Well-typed instances (`wfVals`) never
  produce `none`.
-/

/-- Python scalar values handled by the component: `None`, booleans, ints,
floats (as rationals; only stored and compared, never computed with) and
strings. -/
inductive PValue where
  | none
  | bool (b : Bool)
  | int (n : Int)
  | float (q : Rat)
  | str (s : String)
deriving DecidableEq, Repr

/-- Declared Python type of a scalar dataclass field, as inspected via
`get_type_hints` in `_extract_prop_metadata` (lines 92-99): `bool`, `int`,
`float`, `str`, or `Literal[...]` over string constants. -/
inductive PType where
  | bool
  | int
  | float
  | str
  | literal (choices : List String)
deriving DecidableEq, Repr

/-- A scalar dataclass field: its name, declared type, declared default, and
the two metadata keys the backend reads (`component` override and `label`).
Other metadata keys (help, minimum, maximum, step, interactive_if, ...) are
copied through verbatim by the code and play no role in any claim. -/
structure ScalarField where
  name : String
  ty : PType
  default : PValue
  compMeta : Option String
  labelMeta : Option String
deriving DecidableEq, Repr

/-- A field declaration of a root dataclass: either a scalar field, or a
nested dataclass field ("group") with its own scalar fields.  The group's
default instance (its `default_factory`) is the instance holding every
nested field's declared default. -/
inductive FieldDecl where
  | scalar (f : ScalarField)
  | group (name : String) (gfields : List ScalarField)
deriving DecidableEq, Repr

/-- A dataclass type: its ordered field declarations. -/
structure DCType where
  fields : List FieldDecl
deriving DecidableEq, Repr

/-- A nested dataclass instance: its own scalar fields paired with their
current values (the fields come from the value's own class, which is what
`dataclasses.fields(group_obj)` inspects). -/
abbrev GroupInst := List (ScalarField × PValue)

/-- The runtime value held by one field slot of a dataclass instance.  A
group slot normally holds `FieldVal.group`, but Python's `setattr` can
overwrite it with a scalar. -/
inductive FieldVal where
  | scalar (v : PValue)
  | group (g : GroupInst)
deriving DecidableEq, Repr

/-- A dataclass instance: its type and one value per declared field. -/
structure DCInst where
  ty : DCType
  vals : List FieldVal
deriving DecidableEq, Repr

/-- The attribute name a field declaration contributes to its owning object. -/
def declName : FieldDecl → String
  | .scalar f => f.name
  | .group n _ => n

/-- Names of the nested fields introduced by a declaration (empty for scalars). -/
def nestedNames : FieldDecl → List String
  | .scalar _ => []
  | .group _ gfs => gfs.map fun f => f.name

/-- Every attribute name reachable from a declaration list: each root name
followed by its nested field names. -/
def attrNames : List FieldDecl → List String
  | [] => []
  | d :: ds => (declName d :: nestedNames d) ++ attrNames ds

/-- Whether the declaration list has at least one scalar (non-group) field. -/
def hasScalarDecl (ds : List FieldDecl) : Bool :=
  ds.any fun d => match d with
    | .scalar _ => true
    | .group _ _ => false

/-- The default value of a field slot: the declared default for a scalar,
and the `default_factory` instance (all nested defaults) for a group. -/
def defaultSlot : FieldDecl → FieldVal
  | .scalar f => .scalar f.default
  | .group _ gfs => .group (gfs.map fun f => (f, f.default))

/-- Values of the default instance `T()` built by `preprocess` line 176. -/
def mkDefaultVals (ds : List FieldDecl) : List FieldVal := ds.map defaultSlot

/-- The default instance `self._dataclass_type()` of `preprocess` line 176. -/
def mkDefault (ty : DCType) : DCInst := ⟨ty, mkDefaultVals ty.fields⟩

/-- Python's `name.replace("_", " ")`: for the single-character pattern the
replacement is exactly a character-by-character map. -/
def pyUnderscoreToSpace (s : String) : String :=
  String.mk (s.data.map fun c => if c = '_' then ' ' else c)

/-- Python's `str.capitalize()`: first character uppercased, the rest
lowercased (ASCII suffices for the identifiers involved). -/
def pyCapitalize (s : String) : String :=
  match s.data with
  | [] => ""
  | c :: cs => String.mk (c.toUpper :: cs.map Char.toLower)

/-- Render-kind inference from the declared type when no explicit
`component` metadata is present (`_extract_prop_metadata` lines 93-99). -/
def inferComponent : PType → String
  | .literal _ => "dropdown"
  | .bool => "checkbox"
  | .int => "number_integer"
  | .float => "number_float"
  | .str => "string"

/-- The render kind of a field: the explicit `component` metadata override
when present, otherwise inferred from the declared type. -/
def resolveComponent (f : ScalarField) : String :=
  match f.compMeta with
  | some c => c
  | Option.none => inferComponent f.ty

/-- Line 89: `current_value if current_value is not None else field.default`
(a `MISSING` default is represented by a default of `PValue.none`, which
yields the same result, `None`). -/
def resolveValue (f : ScalarField) (cur : PValue) : PValue :=
  if cur = PValue.none then f.default else cur

/-- Python membership test `value in choices` for a list of string choices. -/
def valueInChoices (v : PValue) (cs : List String) : Bool :=
  cs.any fun c => decide (v = PValue.str c)

/-- The descriptor value after dropdown coercion (lines 101-106): when the
render kind is `"dropdown"` and the declared type is a `Literal`, a value
outside the declared choices is replaced by the first choice (or `None`
when there are no choices). -/
def descValue (f : ScalarField) (cur : PValue) : PValue :=
  let v0 := resolveValue f cur
  match f.ty with
  | .literal cs =>
    if resolveComponent f = "dropdown" then
      if valueInChoices v0 cs then v0
      else
        match cs with
        | c :: _ => PValue.str c
        | [] => PValue.none
    else v0
  | _ => v0

/-- The parts of the metadata dictionary built by `_extract_prop_metadata`
that the claims are about: `name`, `label`, `value`, `component`, `choices`. -/
structure PropDescriptor where
  name : String
  label : String
  value : PValue
  component : String
  choices : Option (List String)
deriving DecidableEq, Repr

/-- `_extract_prop_metadata` (lines 73-107): build the descriptor for one
scalar field holding the given current value. -/
def extractPropMetadata (f : ScalarField) (cur : PValue) : PropDescriptor :=
  { name := f.name
    label := f.labelMeta.getD (pyCapitalize (pyUnderscoreToSpace f.name))
    value := descValue f cur
    component := resolveComponent f
    choices :=
      match f.ty with
      | .literal cs => if resolveComponent f = "dropdown" then some cs else Option.none
      | _ => Option.none }

/-- One entry of the JSON schema: a group name with its property descriptors. -/
structure SchemaGroup where
  group_name : String
  properties : List PropDescriptor
deriving DecidableEq, Repr

/-- The field loop of `postprocess` (lines 132-147): walk the declarations in
order, turning group slots into named schema groups and collecting scalar
slots into the root property list.  `none` models the `TypeError` raised
when a group-declared slot does not hold a dataclass value (and the
scalar-declared/group-valued mismatch, whose descriptor value is outside the
modelled value universe; see the header comment). -/
def extractSlots : List FieldDecl → List FieldVal → Option (List SchemaGroup × List PropDescriptor)
  | [], [] => some ([], [])
  | FieldDecl.scalar f :: ds, FieldVal.scalar x :: vs =>
    match extractSlots ds vs with
    | some (gs, roots) => some (gs, extractPropMetadata f x :: roots)
    | Option.none => Option.none
  | FieldDecl.group n _ :: ds, FieldVal.group g :: vs =>
    match extractSlots ds vs with
    | some (gs, roots) =>
      some ({ group_name := pyCapitalize n
              properties := g.map fun p => extractPropMetadata p.1 p.2 } :: gs, roots)
    | Option.none => Option.none
  | _, _ => Option.none

/-- The schema built by `postprocess` for a dataclass instance: named groups
in declaration order, with a synthetic `"General"` group holding the root
scalar descriptors inserted at position 0 when it is nonempty
(lines 149-150). -/
def schemaOf (i : DCInst) : Option (List SchemaGroup) :=
  match extractSlots i.ty.fields i.vals with
  | some (gs, roots) =>
    some (if roots.isEmpty then gs
          else { group_name := "General", properties := roots } :: gs)
  | Option.none => Option.none

/-- Whether the root object has an attribute of the given name
(`hasattr(reconstructed_obj, prop_name)`, over the declared fields). -/
def rootHasAttrL (ds : List FieldDecl) (n : String) : Bool :=
  ds.any fun d => decide (declName d = n)

/-- Whether a nested group instance has an attribute of the given name
(`hasattr(group_obj, prop_name)`). -/
def groupHasAttr (g : GroupInst) (n : String) : Bool :=
  g.any fun p => decide (p.1.name = n)

/-- `setattr(group_obj, key, new_value)`: replace the value of the first
nested field with the given name. -/
def setGroupVal : GroupInst → String → PValue → GroupInst
  | [], _, _ => []
  | p :: ps, n, x => if p.1.name = n then (p.1, x) :: ps else p :: setGroupVal ps n x

/-- `setattr(reconstructed_obj, key, new_value)` on the root object: replace
the slot of the first declaration with the given name by the scalar value
(this may overwrite a group slot, as Python's `setattr` would). -/
def setRootVals : List FieldDecl → List FieldVal → String → PValue → List FieldVal
  | _, [], _, _ => []
  | [], vs, _, _ => vs
  | d :: ds, v :: vs, n, x =>
    if declName d = n then FieldVal.scalar x :: vs
    else v :: setRootVals ds vs n x

/-- The nested-group search loop of `preprocess` (lines 188-193 / 200-205):
walk the declarations in order; at the first group-declared slot whose
current value is a group instance having the attribute, set it there and
stop.  Slots whose declared type is not a dataclass, and clobbered group
slots (whose current value is a scalar, so `hasattr` fails), are skipped. -/
def setGroupsVals : List FieldDecl → List FieldVal → String → PValue → List FieldVal
  | _, [], _, _ => []
  | [], vs, _, _ => vs
  | d :: ds, v :: vs, n, x =>
    match d, v with
    | FieldDecl.group _ _, FieldVal.group g =>
      if groupHasAttr g n then FieldVal.group (setGroupVal g n x) :: vs
      else FieldVal.group g :: setGroupsVals ds vs n x
    | _, _ => v :: setGroupsVals ds vs n x

/-- The two-tier lookup applied to one payload key (lines 184-193 and
196-205): set on the root when the root has the attribute, otherwise search
the nested groups in declaration order; an unmatched key changes nothing. -/
def stepVals (ds : List FieldDecl) (vs : List FieldVal) (n : String) (x : PValue) : List FieldVal :=
  if rootHasAttrL ds n then setRootVals ds vs n x else setGroupsVals ds vs n x

/-- `setProp i n x`: apply one `name`/`value` pair to an instance. -/
def setProp (i : DCInst) (n : String) (x : PValue) : DCInst :=
  ⟨i.ty, stepVals i.ty.fields i.vals n x⟩

/-- Apply a list of `name`/`value` pairs in order. -/
def applyPairs (i : DCInst) (ps : List (String × PValue)) : DCInst :=
  ps.foldl (fun a p => setProp a p.1 p.2) i

/-- `applyPairs` at the level of value lists (the declarations are fixed
throughout, since `setattr` never changes the object's type). -/
def applyPairsVals (ds : List FieldDecl) (vs : List FieldVal)
    (ps : List (String × PValue)) : List FieldVal :=
  ps.foldl (fun a p => stepVals ds a p.1 p.2) vs

/-- An edit payload from the front-end: either the group-structured list
(each group contributing its `{name, value}` properties, the `group_name`
being ignored by the code) or a flat key/value dictionary (iterated in
insertion order, as Python dicts are).  A payload of any other shape leaves
the freshly built default instance unchanged (no loop runs); no claim
involves that case. -/
inductive Payload where
  | groups (gs : List (List (String × PValue)))
  | flat (kvs : List (String × PValue))
deriving DecidableEq, Repr

/-- Concatenate the property lists of a group-structured payload. -/
def flattenGroups : List (List (String × PValue)) → List (String × PValue)
  | [] => []
  | g :: gs => g ++ flattenGroups gs

/-- All `name`/`value` pairs of a payload, in processing order. -/
def payloadPairs : Payload → List (String × PValue)
  | .groups gs => flattenGroups gs
  | .flat kvs => kvs

/-- All field names mentioned by a payload. -/
def payloadKeys (p : Payload) : List String :=
  (payloadPairs p).map Prod.fst

/-- The payload loops of `preprocess` (lines 179-205). -/
def applyPayload (i : DCInst) : Payload → DCInst
  | .groups gs => gs.foldl (fun a g => applyPairs a g) i
  | .flat kvs => applyPairs i kvs

/-- The component's internally remembered state: `_dataclass_value` and
`_dataclass_type` (lines 58-61). -/
structure CompState where
  dcValue : Option DCInst
  dcType : Option DCType
deriving DecidableEq, Repr

/-- A value handed to the component from the host: absent (`None`), a
dataclass instance, or any other non-dataclass Python value (a bare number,
string, list, ...). -/
inductive InValue where
  | absent
  | record (i : DCInst)
  | other (v : PValue)
deriving DecidableEq, Repr

/-- `PropertySheet.__init__` (lines 55-61): reject a non-absent value that is
not a dataclass instance with `ValueError`, otherwise remember a deep copy of
the value and its type (deep copying is the identity in this pure model). -/
def initComponent : InValue → Except String CompState
  | .other _ => .error "Initial value must be a dataclass instance"
  | .absent => .ok { dcValue := Option.none, dcType := Option.none }
  | .record i => .ok { dcValue := some i, dcType := some i.ty }

/-- `PropertySheet.postprocess` (lines 109-152) as a state transformer: for a
dataclass instance, first re-synchronize the remembered value (always) and
the remembered type (only when none was remembered, line 126), then emit the
schema; for `None` or a non-dataclass value, return the empty schema and
leave the state untouched. -/
def postprocess (st : CompState) : InValue → CompState × Option (List SchemaGroup)
  | .record i =>
    ({ dcValue := some i, dcType := some (st.dcType.getD i.ty) }, schemaOf i)
  | .absent => (st, some [])
  | .other _ => (st, some [])

/-- `PropertySheet.preprocess` (lines 154-207) as a state transformer: a
`None` payload returns `None`; with no remembered type the result is `None`;
otherwise a fresh default instance of the remembered type is built and the
payload's pairs are applied to it.  The remembered state is never modified. -/
def preprocess (st : CompState) : Option Payload → CompState × Option DCInst
  | Option.none => (st, Option.none)
  | some p =>
    match st.dcType with
    | Option.none => (st, Option.none)
    | some ty => (st, some (applyPayload (mkDefault ty) p))

/-- The identity payload derived from a schema: the schema's group/field
shape carrying each descriptor's `name` and `value`. -/
def identityPayload (s : List SchemaGroup) : Payload :=
  .groups (s.map fun g => g.properties.map fun d => (d.name, d.value))

/-- Shape agreement between one declaration and one value slot: scalar slots
hold scalars, group slots hold group instances whose fields are exactly the
declared nested fields (as for any Python instance of the declared class). -/
def slotWFB : FieldDecl → FieldVal → Bool
  | .scalar _, .scalar _ => true
  | .group _ gfs, .group g => decide (g.map Prod.fst = gfs)
  | _, _ => false

/-- Well-typedness of a value list against a declaration list. -/
def wfVals : List FieldDecl → List FieldVal → Bool
  | [], [] => true
  | d :: ds, v :: vs => slotWFB d v && wfVals ds vs
  | _, _ => false

/-- Well-typedness of an instance. -/
def wfB (i : DCInst) : Bool := wfVals i.ty.fields i.vals

/-- Whether one slot's extraction reproduces its stored value: the descriptor
value equals the current value (the value is not `None`-defaulted away and
not coerced by the dropdown fallback). -/
def slotFaithB : FieldDecl → FieldVal → Bool
  | .scalar f, .scalar v => decide (descValue f v = v)
  | .group _ _, .group g => g.all fun p => decide (descValue p.1 p.2 = p.2)
  | _, _ => true

/-- `slotFaithB` over a whole declaration/value list. -/
def faithVals : List FieldDecl → List FieldVal → Bool
  | [], [] => true
  | d :: ds, v :: vs => slotFaithB d v && faithVals ds vs
  | _, _ => true

/-- `slotFaithB` over a whole instance. -/
def faithB (i : DCInst) : Bool := faithVals i.ty.fields i.vals

/-- Global distinctness of all attribute names (root names and nested names). -/
def distinctB (ds : List FieldDecl) : Bool := decide (attrNames ds).Nodup

/-- The root scalar `name`/`value` pairs of an instance, in declaration order. -/
def rootPairs : List FieldDecl → List FieldVal → List (String × PValue)
  | FieldDecl.scalar f :: ds, FieldVal.scalar v :: vs => (f.name, v) :: rootPairs ds vs
  | _ :: ds, _ :: vs => rootPairs ds vs
  | _, _ => []

/-- The nested `name`/`value` pairs of an instance, group by group in
declaration order. -/
def groupPairs : List FieldDecl → List FieldVal → List (String × PValue)
  | FieldDecl.group _ _ :: ds, FieldVal.group g :: vs =>
    (g.map fun p => (p.1.name, p.2)) ++ groupPairs ds vs
  | _ :: ds, _ :: vs => groupPairs ds vs
  | _, _ => []

/-- The root scalar descriptors of an instance, in declaration order
(declarative counterpart of the `root_properties` list of `postprocess`). -/
def rootDescsL : List FieldDecl → List FieldVal → List PropDescriptor
  | FieldDecl.scalar f :: ds, FieldVal.scalar v :: vs =>
    extractPropMetadata f v :: rootDescsL ds vs
  | _ :: ds, _ :: vs => rootDescsL ds vs
  | _, _ => []

/-- The named schema groups of an instance, in declaration order
(declarative counterpart of the group entries of `postprocess`). -/
def groupEntriesL : List FieldDecl → List FieldVal → List SchemaGroup
  | FieldDecl.group n _ :: ds, FieldVal.group g :: vs =>
    { group_name := pyCapitalize n
      properties := g.map fun p => extractPropMetadata p.1 p.2 } :: groupEntriesL ds vs
  | _ :: ds, _ :: vs => groupEntriesL ds vs
  | _, _ => []

/-- The value of the first root attribute with the given name. -/
def getRootVal : List FieldDecl → List FieldVal → String → Option FieldVal
  | d :: ds, v :: vs, n => if declName d = n then some v else getRootVal ds vs n
  | _, _, _ => Option.none

/-- The value of the first nested field with the given name inside a group. -/
def getGroupField : GroupInst → String → Option PValue
  | [], _ => Option.none
  | p :: ps, fn => if p.1.name = fn then some p.2 else getGroupField ps fn

/-- The value of nested field `fn` of the first group attribute named `gn`. -/
def getNestedVal : List FieldDecl → List FieldVal → String → String → Option PValue
  | d :: ds, v :: vs, gn, fn =>
    if declName d = gn then
      match v with
      | FieldVal.group g => getGroupField g fn
      | _ => Option.none
    else getNestedVal ds vs gn fn
  | _, _, _, _ => Option.none

/-- The first declaration with the given name. -/
def findDecl : List FieldDecl → String → Option FieldDecl
  | [], _ => Option.none
  | d :: ds, n => if declName d = n then some d else findDecl ds n

/-- Index of the first root declaration with the given name. -/
def rootIdx : List FieldDecl → String → Option Nat
  | [], _ => Option.none
  | d :: ds, n => if declName d = n then some 0 else (rootIdx ds n).map (· + 1)

/-- Index of the first group-declared slot whose group value owns the given
field name (the slot the nested-group search loop of `preprocess` stops at). -/
def groupIdx : List FieldDecl → List FieldVal → String → Option Nat
  | d :: ds, v :: vs, n =>
    match d, v with
    | FieldDecl.group _ _, FieldVal.group g =>
      if groupHasAttr g n then some 0 else (groupIdx ds vs n).map (· + 1)
    | _, _ => (groupIdx ds vs n).map (· + 1)
  | _, _, _ => Option.none

/-! ### Concrete fixtures (modelled on the demo configuration) -/

/-- Root integer field `seed` with default `-1`. -/
def sfSeed : ScalarField :=
  { name := "seed", ty := .int, default := .int (-1)
    compMeta := Option.none, labelMeta := Option.none }

/-- Nested integer field `steps` with default `25`. -/
def sfSteps : ScalarField :=
  { name := "steps", ty := .int, default := .int 25
    compMeta := Option.none, labelMeta := Option.none }

/-- Enumerated-string field `model_type` with an explicit dropdown override. -/
def sfModelType : ScalarField :=
  { name := "model_type", ty := .literal ["SD 1.5", "SDXL"], default := .str "SDXL"
    compMeta := some "dropdown", labelMeta := some "Base Model" }

/-- Enumerated-string field `background` with inferred dropdown kind. -/
def sfBg : ScalarField :=
  { name := "background", ty := .literal ["Sky", "Color"], default := .str "Sky"
    compMeta := some "dropdown", labelMeta := Option.none }

/-- A root type with one scalar field and one nested group. -/
def tyRender : DCType := ⟨[.scalar sfSeed, .group "sampling" [sfSteps]]⟩

/-- An instance of `tyRender` with non-default values everywhere. -/
def instRender : DCInst := ⟨tyRender, [.scalar (.int 42), .group [(sfSteps, .int 30)]]⟩

/-- A component state remembering `instRender` and its type. -/
def stRender : CompState := { dcValue := some instRender, dcType := some tyRender }

/-- A second, distinct root type. -/
def tyMini : DCType := ⟨[.scalar sfSteps]⟩

/-- An instance of `tyMini`. -/
def instMini : DCInst := ⟨tyMini, [.scalar (.int 1)]⟩

/-- An instance whose enumerated field holds a value outside its choices. -/
def instBadLit : DCInst := ⟨⟨[.scalar sfModelType]⟩, [.scalar (.str "Pony")]⟩

/-- Whether one slot would capture a payload key: a group-declared slot whose
group value owns the name (proof device for reasoning about the search loop). -/
def headOwns : FieldDecl → FieldVal → String → Bool
  | .group _ _, .group g, n => groupHasAttr g n
  | _, _, _ => false

/-- The instance state after the root-scalar phase of an identity
reconciliation: scalar slots carry the instance's values, group slots are
still at their defaults (proof device for the round-trip argument). -/
def mergeRoot : List FieldDecl → List FieldVal → List FieldVal
  | d :: ds, v :: vs =>
    (match d with
     | FieldDecl.scalar _ => v
     | FieldDecl.group gn gfs => defaultSlot (FieldDecl.group gn gfs)) :: mergeRoot ds vs
  | _, _ => []

/-! ### Simple claims -/

/-- Claim C2, counterexample: with `instRender` remembered, reconciling the
absent payload returns `None`, not the remembered value, refuting `reconcile
(absent) returns exactly V`. -/
theorem claim_c2_cex :
    (preprocess stRender Option.none).2 = Option.none ∧
    stRender.dcValue = some instRender ∧
    (preprocess stRender Option.none).2 ≠ stRender.dcValue := by
  refine ⟨rfl, rfl, ?_⟩
  decide

/-- Claim C2, amended: reconciling an absent payload returns absent (`None`),
not the remembered value, and leaves the remembered value and type unchanged
(`preprocess` lines 167-168). -/
theorem claim_c2_amended (st : CompState) : preprocess st Option.none = (st, Option.none) := rfl

/-- Claim C5, counterexample: after a successful reconciliation the remembered
value is still the old `instRender`, not the reconciled object, refuting `the
reconciled object becomes the new remembered current value`. -/
theorem claim_c5_cex :
    (preprocess stRender (some (Payload.flat [("seed", PValue.int 7)]))).2 =
      some ⟨tyRender, [.scalar (.int 7), .group [(sfSteps, .int 25)]]⟩ ∧
    (preprocess stRender (some (Payload.flat [("seed", PValue.int 7)]))).1.dcValue =
      some instRender ∧
    (preprocess stRender (some (Payload.flat [("seed", PValue.int 7)]))).1.dcValue ≠
      (preprocess stRender (some (Payload.flat [("seed", PValue.int 7)]))).2 := by
  refine ⟨by decide, rfl, by decide⟩

/-- Claim C5, amended: reconciliation never commits anything back — the
remembered value and type are unchanged by every `preprocess` call; the
reconciled object is only returned. -/
theorem claim_c5_amended (st : CompState) (p : Option Payload) : (preprocess st p).1 = st := by
  cases p with
  | none => rfl
  | some p =>
    cases hst : st.dcType with
    | none => simp [preprocess, hst]
    | some ty => simp [preprocess, hst]

/-- Claim C4, counterexample: with type `tyRender` already remembered,
extracting an instance of the different type `tyMini` keeps the remembered
type `tyRender` (`postprocess` lines 126-127), refuting `the remembered
current type is set to I's concrete record type ... including when a
different type was already remembered`. -/
theorem claim_c4_cex :
    (postprocess { dcValue := Option.none, dcType := some tyRender } (.record instMini)).1.dcType
      = some tyRender ∧
    (postprocess { dcValue := Option.none, dcType := some tyRender } (.record instMini)).1.dcValue
      = some instMini ∧
    tyRender ≠ tyMini := by
  refine ⟨rfl, rfl, by decide⟩

/-- Claim C4, amended: extraction of a record instance always re-synchronizes
the remembered current value to (a deep copy of) the instance, but the
remembered current type is set to the instance's type only when no type was
remembered yet; an earlier remembered type is kept. -/
theorem claim_c4_amended (st : CompState) (i : DCInst) :
    (postprocess st (.record i)).1 =
      { dcValue := some i, dcType := some (st.dcType.getD i.ty) } := rfl

/-- Claim C8: constructing the component with a non-absent, non-dataclass
value always fails with `ValueError` (`__init__` lines 55-56), while absent
values and record instances construct successfully; `preprocess` and
`postprocess` are total functions of the embedding, so this construction-time
check is the only hard failure. -/
theorem claim_c8 :
    (∀ v : PValue,
      initComponent (.other v) = Except.error "Initial value must be a dataclass instance") ∧
    (∀ i : DCInst,
      initComponent (.record i) = Except.ok { dcValue := some i, dcType := some i.ty }) ∧
    initComponent .absent = Except.ok { dcValue := Option.none, dcType := Option.none } :=
  ⟨fun _ => rfl, fun _ => rfl, rfl⟩

/-- Claim C10: schema extraction on a value that is neither absent nor a
record instance returns the empty schema, raises nothing, and leaves the
remembered value and type untouched (`postprocess` lines 123-130). -/
theorem claim_c10 (st : CompState) (v : PValue) : postprocess st (.other v) = (st, some []) := rfl

/-- Claim C6: for a field whose render kind resolves to `"dropdown"` and
whose declared type is an enumerated-string `Literal`, the descriptor's
choices are exactly the declared literals in declared order; a resolved value
outside that set is coerced to the first declared choice, a member value is
kept, and no error is raised (`_extract_prop_metadata` lines 101-107). -/
theorem claim_c6 (f : ScalarField) (cur : PValue) (c : String) (cs : List String)
    (hty : f.ty = PType.literal (c :: cs))
    (hcomp : resolveComponent f = "dropdown") :
    (extractPropMetadata f cur).choices = some (c :: cs) ∧
    (valueInChoices (resolveValue f cur) (c :: cs) = false →
      (extractPropMetadata f cur).value = PValue.str c) ∧
    (valueInChoices (resolveValue f cur) (c :: cs) = true →
      (extractPropMetadata f cur).value = resolveValue f cur) := by
  refine ⟨?_, ?_, ?_⟩
  · simp [extractPropMetadata, hty, hcomp]
  · intro h
    simp [extractPropMetadata, descValue, hty, hcomp, h]
  · intro h
    simp [extractPropMetadata, descValue, hty, hcomp, h]

/-- Claim C6, witness: the `background` dropdown field holding the invalid
value `"Image"` gets the full choice list and the first choice as value. -/
theorem claim_c6_witness :
    (extractPropMetadata sfBg (PValue.str "Image")).choices = some ["Sky", "Color"] ∧
    (extractPropMetadata sfBg (PValue.str "Image")).value = PValue.str "Sky" := by
  have h := claim_c6 sfBg (PValue.str "Image") "Sky" ["Color"] rfl rfl
  exact ⟨h.1, h.2.1 (by decide)⟩

/-! ### Positional characterization of the two-tier lookup (for C7) -/

/-- A root declaration found by index implies the root `hasattr` test succeeds. -/
theorem rootHasAttrL_of_rootIdx {ds : List FieldDecl} {n : String} {k : Nat}
    (h : rootIdx ds n = some k) : rootHasAttrL ds n = true := by
  induction ds generalizing k with
  | nil => simp [rootIdx] at h
  | cons d ds ih =>
    by_cases hd : declName d = n
    · simp [rootHasAttrL, List.any_cons, hd]
    · simp only [rootIdx, if_neg hd, Option.map_eq_some'] at h
      obtain ⟨k', hk', -⟩ := h
      have h' := ih hk'
      simp only [rootHasAttrL] at h' ⊢
      simp [List.any_cons, h']

/-- Root `setattr` replaces exactly the slot of the first declaration with the
matching name. -/
theorem setRootVals_eq_set {n : String} {x : PValue} :
    ∀ (ds : List FieldDecl) (vs : List FieldVal) (k : Nat),
      rootIdx ds n = some k →
      setRootVals ds vs n x = vs.set k (FieldVal.scalar x) := by
  intro ds
  induction ds with
  | nil => intro vs k h; simp [rootIdx] at h
  | cons d ds ih =>
    intro vs k h
    cases vs with
    | nil => cases k <;> rfl
    | cons v vs =>
      by_cases hd : declName d = n
      · simp only [rootIdx, if_pos hd, Option.some.injEq] at h
        subst h
        simp [setRootVals, hd]
      · simp only [rootIdx, if_neg hd, Option.map_eq_some'] at h
        obtain ⟨k', hk', hkk⟩ := h
        subst hkk
        simp [setRootVals, hd, ih vs k' hk', List.set]

/-- When no group owns the key, the nested-group search loop changes nothing. -/
theorem setGroupsVals_of_groupIdx_none {n : String} {x : PValue} :
    ∀ (ds : List FieldDecl) (vs : List FieldVal),
      groupIdx ds vs n = Option.none →
      setGroupsVals ds vs n x = vs := by
  intro ds
  induction ds with
  | nil => intro vs _; cases vs <;> rfl
  | cons d ds ih =>
    intro vs h
    cases vs with
    | nil => rfl
    | cons v vs =>
      cases d with
      | scalar f =>
        simp only [groupIdx, Option.map_eq_none'] at h
        simp [setGroupsVals, ih vs h]
      | group gn gfs =>
        cases v with
        | scalar w =>
          simp only [groupIdx, Option.map_eq_none'] at h
          simp [setGroupsVals, ih vs h]
        | group g =>
          by_cases hA : groupHasAttr g n
          · simp [groupIdx, hA] at h
          · simp only [groupIdx, if_neg hA, Option.map_eq_none'] at h
            simp [setGroupsVals, if_neg hA, ih vs h]

/-- The nested-group search loop updates exactly the first group slot that
owns the key, applying `setattr` inside that group. -/
theorem setGroupsVals_eq_set {n : String} {x : PValue} :
    ∀ (ds : List FieldDecl) (vs : List FieldVal) (k : Nat) (g : GroupInst),
      groupIdx ds vs n = some k →
      vs[k]? = some (FieldVal.group g) →
      setGroupsVals ds vs n x = vs.set k (FieldVal.group (setGroupVal g n x)) := by
  intro ds
  induction ds with
  | nil => intro vs k g h _; cases vs <;> simp [groupIdx] at h
  | cons d ds ih =>
    intro vs k g h hv
    cases vs with
    | nil => simp [groupIdx] at h
    | cons v vs =>
      cases d with
      | scalar f =>
        simp only [groupIdx, Option.map_eq_some'] at h
        obtain ⟨k', hk', hkk⟩ := h
        subst hkk
        simp only [List.getElem?_cons_succ] at hv
        simp [setGroupsVals, ih vs k' g hk' hv, List.set]
      | group gn gfs =>
        cases v with
        | scalar w =>
          simp only [groupIdx, Option.map_eq_some'] at h
          obtain ⟨k', hk', hkk⟩ := h
          subst hkk
          simp only [List.getElem?_cons_succ] at hv
          simp [setGroupsVals, ih vs k' g hk' hv, List.set]
        | group g' =>
          by_cases hA : groupHasAttr g' n
          · simp only [groupIdx, if_pos hA, Option.some.injEq] at h
            subst h
            simp only [List.getElem?_cons_zero, Option.some.injEq, FieldVal.group.injEq] at hv
            subst hv
            simp [setGroupsVals, if_pos hA]
          · simp only [groupIdx, if_neg hA, Option.map_eq_some'] at h
            obtain ⟨k', hk', hkk⟩ := h
            subst hkk
            simp only [List.getElem?_cons_succ] at hv
            simp [setGroupsVals, if_neg hA, ih vs k' g hk' hv, List.set]

/-- Claim C7: reconciling a flat payload folds the two-tier lookup over the
fresh default instance, and for each key that lookup (1) sets the root slot
of the first root field with that name when the root has it, (2) otherwise
sets the first nested group in declaration order owning the field name,
stopping there, and (3) silently ignores a key present in neither. -/
theorem claim_c7 :
    (∀ (st : CompState) (ty : DCType) (kvs : List (String × PValue)),
      st.dcType = some ty →
      preprocess st (some (.flat kvs)) = (st, some (applyPairs (mkDefault ty) kvs))) ∧
    (∀ (i : DCInst) (n : String) (x : PValue) (k : Nat),
      rootIdx i.ty.fields n = some k →
      setProp i n x = ⟨i.ty, i.vals.set k (FieldVal.scalar x)⟩) ∧
    (∀ (i : DCInst) (n : String) (x : PValue) (k : Nat) (g : GroupInst),
      rootHasAttrL i.ty.fields n = false →
      groupIdx i.ty.fields i.vals n = some k →
      i.vals[k]? = some (FieldVal.group g) →
      setProp i n x = ⟨i.ty, i.vals.set k (FieldVal.group (setGroupVal g n x))⟩) ∧
    (∀ (i : DCInst) (n : String) (x : PValue),
      rootHasAttrL i.ty.fields n = false →
      groupIdx i.ty.fields i.vals n = Option.none →
      setProp i n x = i) := by
  refine ⟨?_, ?_, ?_, ?_⟩
  · intro st ty kvs hst
    simp [preprocess, hst, applyPayload]
  · intro i n x k h
    simp [setProp, stepVals, rootHasAttrL_of_rootIdx h, setRootVals_eq_set _ _ _ h]
  · intro i n x k g hroot h hv
    simp [setProp, stepVals, hroot, setGroupsVals_eq_set _ _ _ _ h hv]
  · intro i n x hroot h
    simp [setProp, stepVals, hroot, setGroupsVals_of_groupIdx_none _ _ h]

/-- Claim C7, witness: on `instRender`, the key `seed` hits the root, the key
`steps` lands in the first (only) group owning it, and an unknown key is
ignored. -/
theorem claim_c7_witness :
    setProp instRender "seed" (PValue.int 7) =
      ⟨tyRender, [.scalar (.int 7), .group [(sfSteps, .int 30)]]⟩ ∧
    setProp instRender "steps" (PValue.int 99) =
      ⟨tyRender, [.scalar (.int 42), .group [(sfSteps, .int 99)]]⟩ ∧
    setProp instRender "nonexistent" (PValue.int 0) = instRender ∧
    preprocess stRender (some (.flat [("steps", PValue.int 99)])) =
      (stRender, some ⟨tyRender, [.scalar (.int (-1)), .group [(sfSteps, .int 99)]]⟩) := by
  refine ⟨?_, ?_, ?_, ?_⟩
  · exact (claim_c7.2.1 instRender "seed" (PValue.int 7) 0 (by decide)).trans (by decide)
  · exact (claim_c7.2.2.1 instRender "steps" (PValue.int 99) 1 [(sfSteps, PValue.int 30)]
      (by decide) (by decide) (by decide)).trans (by decide)
  · exact claim_c7.2.2.2 instRender "nonexistent" (PValue.int 0) (by decide) (by decide)
  · exact (claim_c7.1 stRender tyRender [("steps", PValue.int 99)] (by rfl)).trans (by decide)

/-! ### Frame lemmas: payload keys not naming a field leave it at its default (for C1) -/

/-- Root `setattr` of key `k` does not change the first root attribute named
`n ≠ k`. -/
theorem getRootVal_setRootVals {k n : String} {x : PValue} (hkn : ¬ k = n) :
    ∀ (ds : List FieldDecl) (vs : List FieldVal),
      getRootVal ds (setRootVals ds vs k x) n = getRootVal ds vs n := by
  intro ds
  induction ds with
  | nil => intro vs; cases vs <;> rfl
  | cons d ds ih =>
    intro vs
    cases vs with
    | nil => rfl
    | cons v vs =>
      have hnk : ¬ n = k := fun hc => hkn hc.symm
      by_cases hd : declName d = k
      · have hdn : ¬ declName d = n := by rw [hd]; exact hkn
        simp [setRootVals, hd, getRootVal, hdn, hkn]
      · by_cases hdn : declName d = n
        · simp [setRootVals, hd, getRootVal, hdn, hnk]
        · simp [setRootVals, hd, getRootVal, hdn, ih]

/-- The nested-group search never changes a root attribute whose first
declaration is a scalar field. -/
theorem getRootVal_setGroupsVals {k n : String} {x : PValue} {f : ScalarField} :
    ∀ (ds : List FieldDecl) (vs : List FieldVal),
      findDecl ds n = some (.scalar f) →
      getRootVal ds (setGroupsVals ds vs k x) n = getRootVal ds vs n := by
  intro ds
  induction ds with
  | nil => intro vs h; simp [findDecl] at h
  | cons d ds ih =>
    intro vs h
    cases vs with
    | nil => rfl
    | cons v vs =>
      by_cases hdn : declName d = n
      · have hd : d = FieldDecl.scalar f := by simpa [findDecl, hdn] using h
        subst hd
        cases v <;> simp [setGroupsVals, getRootVal, hdn]
      · have h' : findDecl ds n = some (.scalar f) := by simpa [findDecl, hdn] using h
        cases d with
        | scalar f' => cases v <;> simp [setGroupsVals, getRootVal, hdn, ih vs h']
        | group gn gfs =>
          cases v with
          | scalar w => simp [setGroupsVals, getRootVal, hdn, ih vs h']
          | group g =>
            by_cases hA : groupHasAttr g k
            · simp [setGroupsVals, hA, getRootVal, hdn]
            · simp [setGroupsVals, hA, getRootVal, hdn, ih vs h']

/-- One two-tier update with key `k` does not change a scalar root field
named `n ≠ k`. -/
theorem getRootVal_stepVals {k n : String} {x : PValue} {f : ScalarField}
    {ds : List FieldDecl} {vs : List FieldVal}
    (hf : findDecl ds n = some (.scalar f)) (hkn : ¬ k = n) :
    getRootVal ds (stepVals ds vs k x) n = getRootVal ds vs n := by
  unfold stepVals
  by_cases hr : rootHasAttrL ds k
  · simp only [hr, if_true]
    exact getRootVal_setRootVals hkn ds vs
  · simp only [hr, Bool.false_eq_true, if_false]
    exact getRootVal_setGroupsVals ds vs hf

/-- Applying any number of pairs whose keys all differ from `n` does not
change a scalar root field named `n`. -/
theorem getRootVal_applyPairsVals {n : String} {f : ScalarField} {ds : List FieldDecl} :
    ∀ (ps : List (String × PValue)) (vs : List FieldVal),
      findDecl ds n = some (.scalar f) →
      (∀ q ∈ ps, ¬ q.1 = n) →
      getRootVal ds (applyPairsVals ds vs ps) n = getRootVal ds vs n := by
  intro ps
  induction ps with
  | nil => intro vs _ _; rfl
  | cons q ps ih =>
    intro vs hf hq
    have h1 : applyPairsVals ds vs (q :: ps) = applyPairsVals ds (stepVals ds vs q.1 q.2) ps := rfl
    rw [h1, ih _ hf fun r hr => hq r (List.mem_cons_of_mem _ hr),
      getRootVal_stepVals hf (hq q (List.mem_cons_self q ps))]

/-- `setattr` inside a group with key `k` does not change a nested field
named `fn ≠ k`. -/
theorem getGroupField_setGroupVal {k fn : String} {x : PValue} (hfk : ¬ fn = k) :
    ∀ (g : GroupInst), getGroupField (setGroupVal g k x) fn = getGroupField g fn := by
  intro g
  induction g with
  | nil => rfl
  | cons p ps ih =>
    have hkf : ¬ k = fn := fun hc => hfk hc.symm
    by_cases hp : p.1.name = k
    · have hp' : ¬ p.1.name = fn := by rw [hp]; intro hc; exact hfk hc.symm
      simp [setGroupVal, hp, getGroupField, hp', hkf]
    · by_cases hpf : p.1.name = fn
      · simp [setGroupVal, hp, getGroupField, hpf, hfk]
      · simp [setGroupVal, hp, getGroupField, hpf, ih]

/-- Root `setattr` of key `k` does not change nested field `fn` of a group
attribute named `gn ≠ k`. -/
theorem getNestedVal_setRootVals {k gn fn : String} {x : PValue} (hk : ¬ k = gn) :
    ∀ (ds : List FieldDecl) (vs : List FieldVal),
      getNestedVal ds (setRootVals ds vs k x) gn fn = getNestedVal ds vs gn fn := by
  intro ds
  induction ds with
  | nil => intro vs; cases vs <;> rfl
  | cons d ds ih =>
    intro vs
    cases vs with
    | nil => rfl
    | cons v vs =>
      have hgk : ¬ gn = k := fun hc => hk hc.symm
      by_cases hd : declName d = k
      · have hdg : ¬ declName d = gn := by rw [hd]; exact hk
        simp [setRootVals, hd, getNestedVal, hdg, hk]
      · by_cases hdg : declName d = gn
        · simp [setRootVals, hd, getNestedVal, hdg, hgk]
        · simp [setRootVals, hd, getNestedVal, hdg, ih]

/-- The nested-group search with key `k` does not change any nested field
named `fn ≠ k`. -/
theorem getNestedVal_setGroupsVals {k gn fn : String} {x : PValue} (hfk : ¬ fn = k) :
    ∀ (ds : List FieldDecl) (vs : List FieldVal),
      getNestedVal ds (setGroupsVals ds vs k x) gn fn = getNestedVal ds vs gn fn := by
  intro ds
  induction ds with
  | nil => intro vs; cases vs <;> rfl
  | cons d ds ih =>
    intro vs
    cases vs with
    | nil => rfl
    | cons v vs =>
      by_cases hdg : declName d = gn
      · cases d with
        | scalar f => cases v <;> simp [setGroupsVals, getNestedVal, hdg]
        | group gn' gfs =>
          cases v with
          | scalar w => simp [setGroupsVals, getNestedVal, hdg]
          | group g =>
            by_cases hA : groupHasAttr g k
            · simp [setGroupsVals, hA, getNestedVal, hdg, getGroupField_setGroupVal hfk]
            · simp [setGroupsVals, hA, getNestedVal, hdg]
      · cases d with
        | scalar f => cases v <;> simp [setGroupsVals, getNestedVal, hdg, ih]
        | group gn' gfs =>
          cases v with
          | scalar w => simp [setGroupsVals, getNestedVal, hdg, ih]
          | group g =>
            by_cases hA : groupHasAttr g k
            · simp [setGroupsVals, hA, getNestedVal, hdg]
            · simp [setGroupsVals, hA, getNestedVal, hdg, ih]

/-- One two-tier update with key `k ∉ {gn, fn}` does not change nested field
`fn` of the group attribute `gn`. -/
theorem getNestedVal_stepVals {k gn fn : String} {x : PValue}
    {ds : List FieldDecl} {vs : List FieldVal}
    (hkg : ¬ k = gn) (hkf : ¬ fn = k) :
    getNestedVal ds (stepVals ds vs k x) gn fn = getNestedVal ds vs gn fn := by
  unfold stepVals
  by_cases hr : rootHasAttrL ds k
  · simp only [hr, if_true]
    exact getNestedVal_setRootVals hkg ds vs
  · simp only [hr, Bool.false_eq_true, if_false]
    exact getNestedVal_setGroupsVals hkf ds vs

/-- Applying pairs whose keys avoid both `gn` and `fn` does not change nested
field `fn` of the group attribute `gn`. -/
theorem getNestedVal_applyPairsVals {gn fn : String} {ds : List FieldDecl} :
    ∀ (ps : List (String × PValue)) (vs : List FieldVal),
      (∀ q ∈ ps, ¬ q.1 = gn ∧ ¬ q.1 = fn) →
      getNestedVal ds (applyPairsVals ds vs ps) gn fn = getNestedVal ds vs gn fn := by
  intro ps
  induction ps with
  | nil => intro vs _; rfl
  | cons q ps ih =>
    intro vs hq
    have h1 : applyPairsVals ds vs (q :: ps) = applyPairsVals ds (stepVals ds vs q.1 q.2) ps := rfl
    have hq0 := hq q (List.mem_cons_self q ps)
    rw [h1, ih _ fun r hr => hq r (List.mem_cons_of_mem _ hr),
      getNestedVal_stepVals hq0.1 (fun hc => hq0.2 hc.symm)]

/-- The default instance holds each scalar root field at its declared default. -/
theorem getRootVal_mkDefaultVals {n : String} {f : ScalarField} :
    ∀ (ds : List FieldDecl),
      findDecl ds n = some (.scalar f) →
      getRootVal ds (mkDefaultVals ds) n = some (.scalar f.default) := by
  intro ds
  induction ds with
  | nil => intro h; simp [findDecl] at h
  | cons d ds ih =>
    intro h
    by_cases hd : declName d = n
    · have hdf : d = FieldDecl.scalar f := by simpa [findDecl, hd] using h
      subst hdf
      simp [mkDefaultVals, getRootVal, hd, defaultSlot]
    · have h' : findDecl ds n = some (.scalar f) := by simpa [findDecl, hd] using h
      simpa [mkDefaultVals, getRootVal, hd] using ih h'

/-- Folding pair lists concatenates. -/
theorem applyPairs_append (i : DCInst) (ps qs : List (String × PValue)) :
    applyPairs i (ps ++ qs) = applyPairs (applyPairs i ps) qs := by
  simp [applyPairs, List.foldl_append]

/-- The group loop of `preprocess` is the fold over the concatenated pairs. -/
theorem applyGroups_eq :
    ∀ (gs : List (List (String × PValue))) (i : DCInst),
      List.foldl (fun a g => applyPairs a g) i gs = applyPairs i (flattenGroups gs) := by
  intro gs
  induction gs with
  | nil => intro i; rfl
  | cons g gs ih =>
    intro i
    simp only [List.foldl_cons, flattenGroups, applyPairs_append]
    exact ih (applyPairs i g)

/-- Both payload shapes reduce to one fold over their `name`/`value` pairs. -/
theorem applyPayload_eq_applyPairs (i : DCInst) (p : Payload) :
    applyPayload i p = applyPairs i (payloadPairs p) := by
  cases p with
  | groups gs => exact applyGroups_eq gs i
  | flat kvs => rfl

/-- `applyPairs` fixes the instance type and acts on the value list. -/
theorem applyPairs_mk (ty : DCType) :
    ∀ (ps : List (String × PValue)) (vs : List FieldVal),
      applyPairs ⟨ty, vs⟩ ps = ⟨ty, applyPairsVals ty.fields vs ps⟩ := by
  intro ps
  induction ps with
  | nil => intro vs; rfl
  | cons q ps ih =>
    intro vs
    have h1 : applyPairs (⟨ty, vs⟩ : DCInst) (q :: ps) =
        applyPairs ⟨ty, stepVals ty.fields vs q.1 q.2⟩ ps := rfl
    rw [h1, ih]
    rfl

/-- Claim C1, counterexample: with `instRender` (seed 42) remembered,
reconciling the empty flat payload yields the default-constructed instance —
`seed` is reset to its declared default `-1` instead of keeping the
remembered 42, refuting `every field of the result that is not named in P
equals the corresponding field of V`. -/
theorem claim_c1_cex :
    payloadKeys (Payload.flat []) = [] ∧
    (preprocess stRender (some (Payload.flat []))).2 =
      some ⟨tyRender, [.scalar (.int (-1)), .group [(sfSteps, .int 25)]]⟩ ∧
    stRender.dcValue = some instRender ∧
    getRootVal tyRender.fields instRender.vals "seed" = some (.scalar (.int 42)) ∧
    getRootVal tyRender.fields [FieldVal.scalar (.int (-1)),
      FieldVal.group [(sfSteps, .int 25)]] "seed" = some (.scalar (.int (-1))) := by
  refine ⟨rfl, by decide, rfl, by decide, by decide⟩

/-- Claim C1, amended: a successful reconciliation starts from a freshly
default-constructed instance of the remembered type, not from a copy of the
remembered value: every scalar root field not named in the payload holds its
declared default (not the remembered field), every nested field neither named
itself nor inside a group named by the payload keeps its default, and the
remembered state is not mutated. -/
theorem claim_c1_amended (st : CompState) (ty : DCType) (p : Payload)
    (hst : st.dcType = some ty) :
    (preprocess st (some p)).1 = st ∧
    (preprocess st (some p)).2 = some (applyPayload (mkDefault ty) p) ∧
    (∀ (n : String) (f : ScalarField),
      findDecl ty.fields n = some (.scalar f) →
      n ∉ payloadKeys p →
      getRootVal ty.fields (applyPayload (mkDefault ty) p).vals n =
        some (.scalar f.default)) ∧
    (∀ (gn fn : String),
      gn ∉ payloadKeys p → fn ∉ payloadKeys p →
      getNestedVal ty.fields (applyPayload (mkDefault ty) p).vals gn fn =
        getNestedVal ty.fields (mkDefaultVals ty.fields) gn fn) := by
  have hkeys : ∀ (n : String), n ∉ payloadKeys p → ∀ q ∈ payloadPairs p, ¬ q.1 = n := by
    intro n hn q hq hc
    exact hn (hc ▸ List.mem_map_of_mem Prod.fst hq)
  refine ⟨by simp [preprocess, hst], by simp [preprocess, hst], ?_, ?_⟩
  · intro n f hf hn
    rw [applyPayload_eq_applyPairs, mkDefault, applyPairs_mk]
    exact (getRootVal_applyPairsVals _ _ hf (hkeys n hn)).trans (getRootVal_mkDefaultVals _ hf)
  · intro gn fn hgn hfn
    rw [applyPayload_eq_applyPairs, mkDefault, applyPairs_mk]
    exact getNestedVal_applyPairsVals _ _ fun q hq =>
      ⟨hkeys gn hgn q hq, hkeys fn hfn q hq⟩

/-- Claim C1 (amended), witness: reconciling `{steps: 99}` on the remembered
`tyRender` leaves the untouched root field `seed` at its declared default. -/
theorem claim_c1_witness :
    (preprocess stRender (some (Payload.flat [("steps", PValue.int 99)]))).1 = stRender ∧
    getRootVal tyRender.fields
      (applyPayload (mkDefault tyRender) (Payload.flat [("steps", PValue.int 99)])).vals "seed" =
      some (.scalar (.int (-1))) := by
  have h := claim_c1_amended stRender tyRender (Payload.flat [("steps", PValue.int 99)]) rfl
  exact ⟨h.1, h.2.2.1 "seed" sfSeed (by decide) (by decide)⟩

/-! ### Schema shape (for C9) -/

/-- On a well-typed instance the extraction pass succeeds and produces
exactly the declarative group entries and root descriptors. -/
theorem extractSlots_eq_of_wf :
    ∀ (ds : List FieldDecl) (vs : List FieldVal), wfVals ds vs = true →
      extractSlots ds vs = some (groupEntriesL ds vs, rootDescsL ds vs) := by
  intro ds
  induction ds with
  | nil =>
    intro vs h
    cases vs with
    | nil => rfl
    | cons v vs => simp [wfVals] at h
  | cons d ds ih =>
    intro vs h
    cases vs with
    | nil => simp [wfVals] at h
    | cons v vs =>
      have h12 : slotWFB d v = true ∧ wfVals ds vs = true := by
        simpa [wfVals, Bool.and_eq_true] using h
      cases d with
      | scalar f =>
        cases v with
        | scalar x => simp [extractSlots, ih vs h12.2, groupEntriesL, rootDescsL]
        | group g => simp [slotWFB] at h12
      | group n gfs =>
        cases v with
        | scalar x => simp [slotWFB] at h12
        | group g => simp [extractSlots, ih vs h12.2, groupEntriesL, rootDescsL]

/-- On a well-typed instance, the root descriptor list is empty exactly when
the root has no scalar field. -/
theorem rootDescsL_isEmpty_eq :
    ∀ (ds : List FieldDecl) (vs : List FieldVal), wfVals ds vs = true →
      (rootDescsL ds vs).isEmpty = !hasScalarDecl ds := by
  intro ds
  induction ds with
  | nil =>
    intro vs h
    cases vs with
    | nil => rfl
    | cons v vs => simp [wfVals] at h
  | cons d ds ih =>
    intro vs h
    cases vs with
    | nil => simp [wfVals] at h
    | cons v vs =>
      have h12 : slotWFB d v = true ∧ wfVals ds vs = true := by
        simpa [wfVals, Bool.and_eq_true] using h
      cases d with
      | scalar f =>
        cases v with
        | scalar x => simp [rootDescsL, hasScalarDecl, List.any_cons]
        | group g => simp [slotWFB] at h12
      | group n gfs =>
        cases v with
        | scalar x => simp [slotWFB] at h12
        | group g =>
          have := ih vs h12.2
          simpa [rootDescsL, hasScalarDecl, List.any_cons] using this

/-- Claim C9: extraction of a well-typed record instance yields each
group-declared field as its own named group (name capitalized) in declaration
order, preceded by the synthetic `"General"` group of root scalar
descriptors, which is present exactly when the root has at least one
non-group field. -/
theorem claim_c9 (st : CompState) (i : DCInst) (hwf : wfB i = true) :
    (postprocess st (.record i)).2 =
      some ((if hasScalarDecl i.ty.fields then
              [{ group_name := "General", properties := rootDescsL i.ty.fields i.vals }]
             else []) ++ groupEntriesL i.ty.fields i.vals) := by
  have h1 := extractSlots_eq_of_wf i.ty.fields i.vals hwf
  have h2 := rootDescsL_isEmpty_eq i.ty.fields i.vals hwf
  simp only [postprocess, schemaOf, h1]
  by_cases hs : hasScalarDecl i.ty.fields = true
  · rw [hs] at h2
    simp [h2, hs]
  · have hs' : hasScalarDecl i.ty.fields = false := by simpa using hs
    rw [hs'] at h2
    simp [h2, hs']

/-- Claim C9, witness: the schema of `instRender` is the `"General"` group
(root scalar `seed`) followed by the capitalized group `"Sampling"`. -/
theorem claim_c9_witness :
    (postprocess stRender (.record instRender)).2 = some
      [ { group_name := "General", properties := [
          { name := "seed", label := "Seed", value := .int 42,
            component := "number_integer", choices := Option.none } ] },
        { group_name := "Sampling", properties := [
          { name := "steps", label := "Steps", value := .int 30,
            component := "number_integer", choices := Option.none } ] } ] := by
  exact (claim_c9 stRender instRender (by decide)).trans (by decide)

/-! ### Round-trip machinery (for C3) -/

/-- Folded pair application distributes over concatenation. -/
theorem applyPairsVals_append (ds : List FieldDecl) (vs : List FieldVal)
    (ps qs : List (String × PValue)) :
    applyPairsVals ds vs (ps ++ qs) = applyPairsVals ds (applyPairsVals ds vs ps) qs := by
  simp [applyPairsVals, List.foldl_append]

/-- A group instance owns a name exactly when one of its fields bears it. -/
theorem groupHasAttr_iff {g : GroupInst} {n : String} :
    groupHasAttr g n = true ↔ n ∈ g.map fun p => p.1.name := by
  simp [groupHasAttr, List.any_eq_true, List.mem_map]

/-- Group `setattr` preserves the group's field declarations. -/
theorem setGroupVal_fst (n : String) (x : PValue) :
    ∀ (g : GroupInst), (setGroupVal g n x).map Prod.fst = g.map Prod.fst := by
  intro g
  induction g with
  | nil => rfl
  | cons p ps ih =>
    by_cases hp : p.1.name = n
    · simp [setGroupVal, hp]
    · simp [setGroupVal, hp, ih]

/-- A name the root `hasattr` test finds is an attribute name. -/
theorem mem_attrNames_of_rootHasAttrL :
    ∀ (ds : List FieldDecl) (n : String), rootHasAttrL ds n = true → n ∈ attrNames ds := by
  intro ds
  induction ds with
  | nil => intro n h; simp [rootHasAttrL] at h
  | cons d ds ih =>
    intro n h
    rcases (by simpa [rootHasAttrL, List.any_cons] using h :
        declName d = n ∨ rootHasAttrL ds n = true) with h' | h'
    · simp [attrNames, h'.symm]
    · simp [attrNames, List.mem_append, ih n h']

/-- Keys of the root pairs are attribute names. -/
theorem rootPairs_key_mem :
    ∀ (ds : List FieldDecl) (vs : List FieldVal) (p : String × PValue),
      p ∈ rootPairs ds vs → p.1 ∈ attrNames ds := by
  intro ds
  induction ds with
  | nil => intro vs p hp; cases vs <;> simp [rootPairs] at hp
  | cons d ds ih =>
    intro vs p hp
    cases vs with
    | nil => simp [rootPairs] at hp
    | cons v vs =>
      cases d with
      | scalar f =>
        cases v with
        | scalar x =>
          rcases (by simpa [rootPairs] using hp :
              p = (f.name, x) ∨ p ∈ rootPairs ds vs) with h | h
          · simp [attrNames, h, declName]
          · simp [attrNames, List.mem_append, ih vs p h]
        | group g =>
          have h : p ∈ rootPairs ds vs := by simpa [rootPairs] using hp
          simp [attrNames, List.mem_append, ih vs p h]
      | group gn gfs =>
        have h : p ∈ rootPairs ds vs := by
          cases v <;> simpa [rootPairs] using hp
        simp [attrNames, List.mem_append, ih vs p h]

/-- Keys of the nested pairs of a well-typed instance are attribute names. -/
theorem groupPairs_key_mem :
    ∀ (ds : List FieldDecl) (vs : List FieldVal), wfVals ds vs = true →
      ∀ (p : String × PValue), p ∈ groupPairs ds vs → p.1 ∈ attrNames ds := by
  intro ds
  induction ds with
  | nil => intro vs _ p hp; cases vs <;> simp [groupPairs] at hp
  | cons d ds ih =>
    intro vs h p hp
    cases vs with
    | nil => simp [wfVals] at h
    | cons v vs =>
      have h12 : slotWFB d v = true ∧ wfVals ds vs = true := by
        simpa [wfVals, Bool.and_eq_true] using h
      cases d with
      | scalar f =>
        cases v with
        | scalar x =>
          have hp' : p ∈ groupPairs ds vs := by simpa [groupPairs] using hp
          simp [attrNames, List.mem_append, ih vs h12.2 p hp']
        | group g => simp [slotWFB] at h12
      | group gn gfs =>
        cases v with
        | scalar x => simp [slotWFB] at h12
        | group g =>
          have hg : g.map Prod.fst = gfs := of_decide_eq_true (by simpa [slotWFB] using h12.1)
          rcases (by simpa [groupPairs, List.mem_append] using hp :
              p ∈ g.map (fun q => (q.1.name, q.2)) ∨ p ∈ groupPairs ds vs) with hmem | hmem
          · have : p.1 ∈ gfs.map fun f => f.name := by
              rcases List.mem_map.mp hmem with ⟨q, hq, hqp⟩
              rw [← hg]
              simp only [List.map_map]
              exact hqp ▸ List.mem_map_of_mem (fun r => r.1.name) hq
            simp [attrNames, nestedNames, List.mem_append, this]
          · simp [attrNames, List.mem_append, ih vs h12.2 p hmem]

/-- A two-tier update whose key the head slot neither declares nor owns
passes over the head slot. -/
theorem stepVals_cons_skip {d : FieldDecl} {w : FieldVal} {n : String} {x : PValue}
    {ds : List FieldDecl} {ws : List FieldVal}
    (h1 : ¬ declName d = n) (h2 : headOwns d w n = false) :
    stepVals (d :: ds) (w :: ws) n x = w :: stepVals ds ws n x := by
  have hr : rootHasAttrL (d :: ds) n = rootHasAttrL ds n := by
    simp [rootHasAttrL, List.any_cons, h1]
  unfold stepVals
  rw [hr]
  by_cases hroot : rootHasAttrL ds n
  · simp only [hroot, if_true]
    simp [setRootVals, h1]
  · simp only [hroot, Bool.false_eq_true, if_false]
    cases d with
    | scalar f => cases w <;> simp [setGroupsVals]
    | group gn gfs =>
      cases w with
      | scalar v => simp [setGroupsVals]
      | group g =>
        have hA : groupHasAttr g n = false := by simpa [headOwns] using h2
        simp [setGroupsVals, hA]

/-- Folding pairs that never touch the head slot passes over it. -/
theorem applyPairsVals_cons_skip {d : FieldDecl} {w : FieldVal} {ds : List FieldDecl} :
    ∀ (ps : List (String × PValue)) (ws : List FieldVal),
      (∀ p ∈ ps, ¬ declName d = p.1 ∧ headOwns d w p.1 = false) →
      applyPairsVals (d :: ds) (w :: ws) ps = w :: applyPairsVals ds ws ps := by
  intro ps
  induction ps with
  | nil => intro ws _; rfl
  | cons p ps ih =>
    intro ws h
    have h0 := h p (List.mem_cons_self p ps)
    have h1 : applyPairsVals (d :: ds) (w :: ws) (p :: ps) =
        applyPairsVals (d :: ds) (stepVals (d :: ds) (w :: ws) p.1 p.2) ps := rfl
    rw [h1, stepVals_cons_skip h0.1 h0.2,
      ih _ fun q hq => h q (List.mem_cons_of_mem _ hq)]
    rfl

/-- A two-tier update whose key the head declaration bears sets the head slot. -/
theorem stepVals_cons_rootHit {d : FieldDecl} {w : FieldVal} {n : String} {x : PValue}
    {ds : List FieldDecl} {ws : List FieldVal} (h : declName d = n) :
    stepVals (d :: ds) (w :: ws) n x = FieldVal.scalar x :: ws := by
  have hr : rootHasAttrL (d :: ds) n = true := by
    simp [rootHasAttrL, List.any_cons, h]
  simp [stepVals, hr, setRootVals, h]

/-- A two-tier update whose key the root lacks but the head group owns sets
it inside the head group. -/
theorem stepVals_cons_groupHit {gn : String} {gfs : List ScalarField} {g : GroupInst}
    {n : String} {x : PValue} {ds : List FieldDecl} {ws : List FieldVal}
    (h1 : ¬ gn = n) (h2 : rootHasAttrL ds n = false) (h3 : groupHasAttr g n = true) :
    stepVals (FieldDecl.group gn gfs :: ds) (FieldVal.group g :: ws) n x =
      FieldVal.group (setGroupVal g n x) :: ws := by
  have hr : rootHasAttrL (FieldDecl.group gn gfs :: ds) n = false := by
    simp only [rootHasAttrL, List.any_cons, Bool.or_eq_false_iff]
    exact ⟨by simp [declName, h1], by simpa [rootHasAttrL] using h2⟩
  simp [stepVals, hr, setGroupsVals, h3]

/-- Pairs whose keys the head group owns (and the root below lacks) all land
inside the head group, in order. -/
theorem applyPairsVals_groupHead {gn : String} {gfs : List ScalarField} {ds : List FieldDecl} :
    ∀ (qs : List (String × PValue)) (h : GroupInst) (ws : List FieldVal),
      h.map Prod.fst = gfs →
      (∀ q ∈ qs, ¬ gn = q.1 ∧ rootHasAttrL ds q.1 = false ∧ (q.1 ∈ gfs.map fun f => f.name)) →
      applyPairsVals (FieldDecl.group gn gfs :: ds) (FieldVal.group h :: ws) qs =
        FieldVal.group (qs.foldl (fun h2 q => setGroupVal h2 q.1 q.2) h) :: ws := by
  intro qs
  induction qs with
  | nil => intro h ws _ _; rfl
  | cons q qs ih =>
    intro h ws hnames hq
    have hq0 := hq q (List.mem_cons_self q qs)
    have hmem : q.1 ∈ h.map fun p => p.1.name := by
      have hn : (h.map fun p => p.1.name) = gfs.map fun f => f.name := by
        rw [← hnames]
        simp [List.map_map]
      rw [hn]
      exact hq0.2.2
    have hA : groupHasAttr h q.1 = true := groupHasAttr_iff.mpr hmem
    have h1 : applyPairsVals (FieldDecl.group gn gfs :: ds) (FieldVal.group h :: ws) (q :: qs) =
        applyPairsVals (FieldDecl.group gn gfs :: ds)
          (stepVals (FieldDecl.group gn gfs :: ds) (FieldVal.group h :: ws) q.1 q.2) qs := rfl
    rw [h1, stepVals_cons_groupHit hq0.1 hq0.2.1 hA,
      ih (setGroupVal h q.1 q.2) ws (by rw [setGroupVal_fst]; exact hnames)
        fun r hr => hq r (List.mem_cons_of_mem _ hr)]
    rfl

/-- Group `setattr` folds pass over a head entry none of the keys name. -/
theorem foldl_setGroupVal_cons_skip :
    ∀ (qs : List (String × PValue)) (p : ScalarField × PValue) (hs : GroupInst),
      (∀ q ∈ qs, ¬ p.1.name = q.1) →
      qs.foldl (fun h2 q => setGroupVal h2 q.1 q.2) (p :: hs) =
        p :: qs.foldl (fun h2 q => setGroupVal h2 q.1 q.2) hs := by
  intro qs
  induction qs with
  | nil => intro p hs _; rfl
  | cons q qs ih =>
    intro p hs h
    have h0 := h q (List.mem_cons_self q qs)
    have hstep : setGroupVal (p :: hs) q.1 q.2 = p :: setGroupVal hs q.1 q.2 := by
      simp [setGroupVal, h0]
    simp only [List.foldl_cons, hstep]
    exact ih p _ fun r hr => h r (List.mem_cons_of_mem _ hr)

/-- Replaying a group's own `name`/`value` pairs onto its default instance
reproduces the group exactly (given distinct field names). -/
theorem foldl_setGroupVal_defaults :
    ∀ (g : GroupInst), (g.map fun p => p.1.name).Nodup →
      (g.map fun p => (p.1.name, p.2)).foldl (fun h2 q => setGroupVal h2 q.1 q.2)
        ((g.map Prod.fst).map fun f => (f, f.default)) = g := by
  intro g
  induction g with
  | nil => intro _; rfl
  | cons p g ih =>
    intro hnd
    rcases List.nodup_cons.mp hnd with ⟨hp, hnd'⟩
    simp only [List.map_cons, List.foldl_cons]
    have hstep : setGroupVal ((p.1, p.1.default) :: (g.map Prod.fst).map fun f => (f, f.default))
        p.1.name p.2 = (p.1, p.2) :: (g.map Prod.fst).map fun f => (f, f.default) := by
      simp [setGroupVal]
    rw [hstep, foldl_setGroupVal_cons_skip _ _ _ ?keys, ih hnd']
    case keys =>
      intro q hq hc
      rcases List.mem_map.mp hq with ⟨r, hr, hrq⟩
      have hq1 : q.1 = r.1.name := by rw [← hrq]
      have hpr : p.1.name = r.1.name := by simpa [hq1] using hc
      exact hp (by
        show p.1.name ∈ List.map (fun p2 => p2.1.name) g
        rw [hpr]
        exact List.mem_map_of_mem (fun p2 => p2.1.name) hr)

/-- Phase 1 of the identity round trip: replaying the root scalar pairs onto
the default instance fills every scalar slot and leaves groups at default. -/
theorem fold_rootPairs :
    ∀ (ds : List FieldDecl) (vs : List FieldVal),
      wfVals ds vs = true → (attrNames ds).Nodup →
      applyPairsVals ds (mkDefaultVals ds) (rootPairs ds vs) = mergeRoot ds vs := by
  intro ds
  induction ds with
  | nil =>
    intro vs h _
    cases vs with
    | nil => rfl
    | cons v vs => simp [wfVals] at h
  | cons d ds ih =>
    intro vs h hnd
    cases vs with
    | nil => simp [wfVals] at h
    | cons v vs =>
      have h12 : slotWFB d v = true ∧ wfVals ds vs = true := by
        simpa [wfVals, Bool.and_eq_true] using h
      have hnd2 : ((declName d :: nestedNames d) ++ attrNames ds).Nodup := by
        simpa only [attrNames] using hnd
      rcases List.nodup_append.mp hnd2 with ⟨hndHead, hndTail, hdisj⟩
      have hdhd : declName d ∉ attrNames ds := fun hm => hdisj (List.mem_cons_self _ _) hm
      cases d with
      | scalar f =>
        cases v with
        | group g => simp [slotWFB] at h12
        | scalar x =>
          have h1 : applyPairsVals (FieldDecl.scalar f :: ds)
              (mkDefaultVals (FieldDecl.scalar f :: ds))
              (rootPairs (FieldDecl.scalar f :: ds) (FieldVal.scalar x :: vs)) =
              applyPairsVals (FieldDecl.scalar f :: ds)
                (stepVals (FieldDecl.scalar f :: ds)
                  (FieldVal.scalar f.default :: mkDefaultVals ds) f.name x)
                (rootPairs ds vs) := rfl
          rw [h1, stepVals_cons_rootHit (by simp [declName]),
            applyPairsVals_cons_skip (rootPairs ds vs) (mkDefaultVals ds) ?hskip,
            ih vs h12.2 hndTail]
          · rfl
          case hskip =>
            intro p hp
            have hpmem := rootPairs_key_mem ds vs p hp
            exact ⟨fun hc => hdhd (hc ▸ hpmem), rfl⟩
      | group gn gfs =>
        cases v with
        | scalar x => simp [slotWFB] at h12
        | group g =>
          have h1 : applyPairsVals (FieldDecl.group gn gfs :: ds)
              (mkDefaultVals (FieldDecl.group gn gfs :: ds))
              (rootPairs (FieldDecl.group gn gfs :: ds) (FieldVal.group g :: vs)) =
              applyPairsVals (FieldDecl.group gn gfs :: ds)
                (FieldVal.group (gfs.map fun f2 => (f2, f2.default)) :: mkDefaultVals ds)
                (rootPairs ds vs) := rfl
          rw [h1, applyPairsVals_cons_skip (rootPairs ds vs) (mkDefaultVals ds) ?hskip2,
            ih vs h12.2 hndTail]
          · rfl
          case hskip2 =>
            intro p hp
            have hpmem := rootPairs_key_mem ds vs p hp
            refine ⟨fun hc => hdhd (hc ▸ hpmem), ?_⟩
            show groupHasAttr (gfs.map fun f2 => (f2, f2.default)) p.1 = false
            cases hA : groupHasAttr (gfs.map fun f2 => (f2, f2.default)) p.1 with
            | false => rfl
            | true =>
              exfalso
              have hm1 := groupHasAttr_iff.mp hA
              have hm2 : p.1 ∈ gfs.map fun f2 => f2.name := by
                simpa [List.map_map] using hm1
              exact hdisj (List.mem_cons_of_mem _ (by simpa [nestedNames] using hm2)) hpmem

/-- The default group instance declares exactly the group's fields. -/
theorem map_fst_defaults (gfs : List ScalarField) :
    (gfs.map fun f2 => (f2, f2.default)).map Prod.fst = gfs := by
  induction gfs with
  | nil => rfl
  | cons a l ihl => simp [ihl]

/-- Phase 2 of the identity round trip: replaying the nested pairs onto the
phase-1 state fills every group slot, reproducing the instance. -/
theorem fold_groupPairs :
    ∀ (ds : List FieldDecl) (vs : List FieldVal),
      wfVals ds vs = true → (attrNames ds).Nodup →
      applyPairsVals ds (mergeRoot ds vs) (groupPairs ds vs) = vs := by
  intro ds
  induction ds with
  | nil =>
    intro vs h _
    cases vs with
    | nil => rfl
    | cons v vs => simp [wfVals] at h
  | cons d ds ih =>
    intro vs h hnd
    cases vs with
    | nil => simp [wfVals] at h
    | cons v vs =>
      have h12 : slotWFB d v = true ∧ wfVals ds vs = true := by
        simpa [wfVals, Bool.and_eq_true] using h
      have hnd2 : ((declName d :: nestedNames d) ++ attrNames ds).Nodup := by
        simpa only [attrNames] using hnd
      rcases List.nodup_append.mp hnd2 with ⟨hndHead, hndTail, hdisj⟩
      have hdhd : declName d ∉ attrNames ds := fun hm => hdisj (List.mem_cons_self _ _) hm
      cases d with
      | scalar f =>
        cases v with
        | group g => simp [slotWFB] at h12
        | scalar x =>
          have h1 : applyPairsVals (FieldDecl.scalar f :: ds)
              (mergeRoot (FieldDecl.scalar f :: ds) (FieldVal.scalar x :: vs))
              (groupPairs (FieldDecl.scalar f :: ds) (FieldVal.scalar x :: vs)) =
              applyPairsVals (FieldDecl.scalar f :: ds)
                (FieldVal.scalar x :: mergeRoot ds vs)
                (groupPairs ds vs) := rfl
          rw [h1, applyPairsVals_cons_skip (groupPairs ds vs) (mergeRoot ds vs) ?hskip,
            ih vs h12.2 hndTail]
          case hskip =>
            intro p hp
            have hpmem := groupPairs_key_mem ds vs h12.2 p hp
            exact ⟨fun hc => hdhd (hc ▸ hpmem), rfl⟩
      | group gn gfs =>
        cases v with
        | scalar x => simp [slotWFB] at h12
        | group g =>
          have hg : g.map Prod.fst = gfs := of_decide_eq_true (by simpa [slotWFB] using h12.1)
          rcases List.nodup_cons.mp hndHead with ⟨hgnnotin, hnestnd⟩
          have hgnames : (g.map fun p => p.1.name) = gfs.map fun f2 => f2.name := by
            rw [← hg]
            simp [List.map_map]
          have h1 : groupPairs (FieldDecl.group gn gfs :: ds) (FieldVal.group g :: vs) =
              (g.map fun p => (p.1.name, p.2)) ++ groupPairs ds vs := rfl
          have h2 : mergeRoot (FieldDecl.group gn gfs :: ds) (FieldVal.group g :: vs) =
              FieldVal.group (gfs.map fun f2 => (f2, f2.default)) :: mergeRoot ds vs := rfl
          rw [h1, h2, applyPairsVals_append,
            applyPairsVals_groupHead (g.map fun p => (p.1.name, p.2))
              (gfs.map fun f2 => (f2, f2.default)) (mergeRoot ds vs)
              (map_fst_defaults gfs) ?hown]
          · have hfill : (g.map fun p => (p.1.name, p.2)).foldl
                (fun h2 q => setGroupVal h2 q.1 q.2) (gfs.map fun f2 => (f2, f2.default)) = g := by
              have := foldl_setGroupVal_defaults g (by rw [hgnames]; simpa [nestedNames] using hnestnd)
              rwa [hg] at this
            rw [hfill, applyPairsVals_cons_skip (groupPairs ds vs) (mergeRoot ds vs) ?hskip2,
              ih vs h12.2 hndTail]
            case hskip2 =>
              intro p hp
              have hpmem := groupPairs_key_mem ds vs h12.2 p hp
              refine ⟨fun hc => hdhd (hc ▸ hpmem), ?_⟩
              show groupHasAttr g p.1 = false
              cases hA : groupHasAttr g p.1 with
              | false => rfl
              | true =>
                exfalso
                have hm1 := groupHasAttr_iff.mp hA
                have hm2 : p.1 ∈ gfs.map fun f2 => f2.name := by rw [← hgnames]; exact hm1
                exact hdisj (List.mem_cons_of_mem _ (by simpa [nestedNames] using hm2)) hpmem
          case hown =>
            intro q hq
            rcases List.mem_map.mp hq with ⟨r, hr, hrq⟩
            have hqname : q.1 ∈ gfs.map fun f2 => f2.name := by
              rw [← hgnames, ← hrq]
              exact List.mem_map_of_mem (fun p2 => p2.1.name) hr
            refine ⟨?_, ?_, hqname⟩
            · intro hc
              exact hgnnotin (by
                rw [hc]
                simpa [nestedNames] using hqname)
            · cases hroot : rootHasAttrL ds q.1 with
              | false => rfl
              | true =>
                exfalso
                exact hdisj (List.mem_cons_of_mem _ (by simpa [nestedNames] using hqname))
                  (mem_attrNames_of_rootHasAttrL ds q.1 hroot)

/-- On a faithful group every descriptor carries the stored value. -/
theorem map_desc_pairs_of_faith :
    ∀ (g : GroupInst), (g.all fun p => decide (descValue p.1 p.2 = p.2)) = true →
      (g.map fun p => (p.1.name, descValue p.1 p.2)) = g.map fun p => (p.1.name, p.2) := by
  intro g
  induction g with
  | nil => intro _; rfl
  | cons p g ih =>
    intro h
    have h1 : descValue p.1 p.2 = p.2 ∧ (g.all fun p => decide (descValue p.1 p.2 = p.2)) = true := by
      simpa [List.all_cons, Bool.and_eq_true, decide_eq_true_eq] using h
    simp [h1.1, ih h1.2]

/-- On a well-typed, faithful instance the root descriptors carry exactly the
root scalar `name`/`value` pairs. -/
theorem rootDescs_pairs :
    ∀ (ds : List FieldDecl) (vs : List FieldVal),
      wfVals ds vs = true → faithVals ds vs = true →
      (rootDescsL ds vs).map (fun dr => (dr.name, dr.value)) = rootPairs ds vs := by
  intro ds
  induction ds with
  | nil =>
    intro vs h _
    cases vs with
    | nil => rfl
    | cons v vs => simp [wfVals] at h
  | cons d ds ih =>
    intro vs h hf
    cases vs with
    | nil => simp [wfVals] at h
    | cons v vs =>
      have h12 : slotWFB d v = true ∧ wfVals ds vs = true := by
        simpa [wfVals, Bool.and_eq_true] using h
      have hf12 : slotFaithB d v = true ∧ faithVals ds vs = true := by
        simpa [faithVals, Bool.and_eq_true] using hf
      cases d with
      | scalar f =>
        cases v with
        | group g => simp [slotWFB] at h12
        | scalar x =>
          have hfx : descValue f x = x := of_decide_eq_true
            (by simpa [slotFaithB] using hf12.1)
          simp [rootDescsL, rootPairs, extractPropMetadata, hfx, ih vs h12.2 hf12.2]
      | group gn gfs =>
        cases v with
        | scalar x => simp [slotWFB] at h12
        | group g => simp [rootDescsL, rootPairs, ih vs h12.2 hf12.2]

/-- On a well-typed, faithful instance the flattened group-entry pairs are
exactly the nested `name`/`value` pairs. -/
theorem groupEntries_pairs :
    ∀ (ds : List FieldDecl) (vs : List FieldVal),
      wfVals ds vs = true → faithVals ds vs = true →
      flattenGroups ((groupEntriesL ds vs).map fun e =>
          e.properties.map fun dr => (dr.name, dr.value)) =
        groupPairs ds vs := by
  intro ds
  induction ds with
  | nil =>
    intro vs h _
    cases vs with
    | nil => rfl
    | cons v vs => simp [wfVals] at h
  | cons d ds ih =>
    intro vs h hf
    cases vs with
    | nil => simp [wfVals] at h
    | cons v vs =>
      have h12 : slotWFB d v = true ∧ wfVals ds vs = true := by
        simpa [wfVals, Bool.and_eq_true] using h
      have hf12 : slotFaithB d v = true ∧ faithVals ds vs = true := by
        simpa [faithVals, Bool.and_eq_true] using hf
      cases d with
      | scalar f =>
        cases v with
        | group g => simp [slotWFB] at h12
        | scalar x => simp [groupEntriesL, groupPairs, ih vs h12.2 hf12.2]
      | group gn gfs =>
        cases v with
        | scalar x => simp [slotWFB] at h12
        | group g =>
          have hfg : (g.all fun p => decide (descValue p.1 p.2 = p.2)) = true := by
            simpa [slotFaithB] using hf12.1
          have hmap : ((g.map fun p => extractPropMetadata p.1 p.2).map
              fun dr => (dr.name, dr.value)) = g.map fun p => (p.1.name, p.2) := by
            rw [List.map_map]
            exact map_desc_pairs_of_faith g hfg
          simp [groupEntriesL, groupPairs, flattenGroups, hmap, ih vs h12.2 hf12.2]

/-- The identity payload of the extracted schema carries exactly the
instance's root pairs followed by its nested pairs. -/
theorem identity_payload_pairs (ds : List FieldDecl) (vs : List FieldVal)
    (hwf : wfVals ds vs = true) (hfa : faithVals ds vs = true) :
    payloadPairs (identityPayload
      (if (rootDescsL ds vs).isEmpty then groupEntriesL ds vs
       else { group_name := "General", properties := rootDescsL ds vs } ::
         groupEntriesL ds vs)) =
    rootPairs ds vs ++ groupPairs ds vs := by
  by_cases he : (rootDescsL ds vs).isEmpty = true
  · have hre : rootDescsL ds vs = [] := by simpa using he
    have hrp : rootPairs ds vs = [] := by
      have h1 := rootDescs_pairs ds vs hwf hfa
      rw [hre] at h1
      exact h1.symm
    simp [identityPayload, payloadPairs, he, hrp, groupEntries_pairs ds vs hwf hfa]
  · have he' : (rootDescsL ds vs).isEmpty = false := by simpa using he
    simp only [he', Bool.false_eq_true, if_false, identityPayload, payloadPairs,
      List.map_cons, flattenGroups]
    rw [rootDescs_pairs ds vs hwf hfa, groupEntries_pairs ds vs hwf hfa]

/-- Claim C3, counterexample: the instance `instBadLit` holds the invalid
enumerated value `"Pony"`; extraction coerces it to the first choice, so the
identity round trip returns an instance with `"SD 1.5"` instead of `"Pony"`,
refuting the unconditional round-trip claim. -/
theorem claim_c3_cex :
    (preprocess
        (postprocess { dcValue := Option.none, dcType := Option.none } (.record instBadLit)).1
        (some (identityPayload
          ((postprocess { dcValue := Option.none, dcType := Option.none }
            (.record instBadLit)).2.getD [])))).2
      = some ⟨⟨[.scalar sfModelType]⟩, [.scalar (.str "SD 1.5")]⟩ ∧
    (⟨⟨[.scalar sfModelType]⟩, [.scalar (.str "SD 1.5")]⟩ : DCInst) ≠ instBadLit := by
  refine ⟨by decide, by decide⟩

/-- Claim C3, amended: for a well-typed instance whose attribute names are
globally distinct, whose every field's extracted value equals its stored
value (no `None`-defaulting and no dropdown coercion applies), and starting
from a state remembering either no type or the instance's own type,
extraction followed by reconciliation of the schema-derived identity payload
returns an instance deep-equal to the input. -/
theorem claim_c3_amended (st : CompState) (i : DCInst)
    (hwf : wfB i = true) (hnd : distinctB i.ty.fields = true) (hfa : faithB i = true)
    (hty : st.dcType = Option.none ∨ st.dcType = some i.ty) :
    ∃ s, (postprocess st (.record i)).2 = some s ∧
      (preprocess (postprocess st (.record i)).1 (some (identityPayload s))).2 = some i := by
  have hnd' : (attrNames i.ty.fields).Nodup := of_decide_eq_true hnd
  have hgetD : st.dcType.getD i.ty = i.ty := by
    rcases hty with h | h <;> simp [h]
  refine ⟨if (rootDescsL i.ty.fields i.vals).isEmpty then groupEntriesL i.ty.fields i.vals
      else { group_name := "General", properties := rootDescsL i.ty.fields i.vals } ::
        groupEntriesL i.ty.fields i.vals, ?_, ?_⟩
  · simp [postprocess, schemaOf, extractSlots_eq_of_wf i.ty.fields i.vals hwf]
  · have hst1 : (postprocess st (.record i)).1 =
        { dcValue := some i, dcType := some (st.dcType.getD i.ty) } := rfl
    rw [hst1, hgetD]
    show some (applyPayload (mkDefault i.ty)
      (identityPayload (if (rootDescsL i.ty.fields i.vals).isEmpty
        then groupEntriesL i.ty.fields i.vals
        else { group_name := "General", properties := rootDescsL i.ty.fields i.vals } ::
          groupEntriesL i.ty.fields i.vals))) = some i
    rw [applyPayload_eq_applyPairs, identity_payload_pairs i.ty.fields i.vals hwf hfa,
      mkDefault, applyPairs_mk, applyPairsVals_append,
      fold_rootPairs i.ty.fields i.vals hwf hnd',
      fold_groupPairs i.ty.fields i.vals hwf hnd']

/-- Claim C3 (amended), witness: the round trip reproduces `instRender`
starting from the unbound state. -/
theorem claim_c3_witness :
    ∃ s, (postprocess { dcValue := Option.none, dcType := Option.none }
        (.record instRender)).2 = some s ∧
      (preprocess (postprocess { dcValue := Option.none, dcType := Option.none }
        (.record instRender)).1 (some (identityPayload s))).2 = some instRender :=
  claim_c3_amended { dcValue := Option.none, dcType := Option.none } instRender
    (by decide) (by decide) (by decide) (Or.inl rfl)
